import Mathlib

/-!
Shallow embedding of the RBOT hybrid retrieval engine
(`src/app/services/bm25_retriever.py`, `faiss_retriever.py`,
`hybrid_retriever.py`) and proofs about the frozen claims.

Modelling conventions:
* Python floats are modelled as exact rationals (`ℚ`).
* External adapters that the spec scopes out (the NLTK/regex tokenizer
  `TextProcessor.preprocess`, the langdetect classifier
  `TextProcessor.detect_language`, the `rank_bm25` scoring function
  `BM25Okapi.get_scores`, and the sentence-transformers encoder) are passed
  in as explicit function parameters; theorems quantify over them.
* `np.argsort` is modelled as a stable ascending sort of indices (numpy's
  behaviour on the small arrays used in the counterexamples below);
  `faiss.IndexFlatIP.search` as a descending sort of inner-product scores
  truncated to the requested count.
* Python dictionaries keep insertion order; they are modelled as
  association lists with insert-or-update-in-place semantics.
-/

/-- A document record: stable id plus the `language` tag used for
partitioning (`doc.get('language')`, `none` when unset). -/
structure Doc where
  id : String
  language : Option String
deriving DecidableEq, Repr

/-- A single-source search result dictionary: `document`, `score`, `rank`. -/
structure SR where
  document : Doc
  score : ℚ
  rank : Nat
deriving DecidableEq, Repr

/-- Python truthiness test `not query or not query.strip()`: the string is
empty or consists only of whitespace. -/
def pyBlank (s : String) : Bool :=
  s.toList.all fun c => c = ' ' ∨ c = '\t' ∨ c = '\n' ∨ c = '\r' ∨ c = '\x0b' ∨ c = '\x0c'

/-- Python truthiness of an optional string (`if language:`). -/
def pyTruthy (o : Option String) : Bool :=
  match o with
  | none => false
  | some s => s ≠ ""

/-- `if not language: language = self.text_processor.detect_language(query)`. -/
def resolveLang (det : String → String) (language : Option String) (query : String) : String :=
  match language with
  | none => det query
  | some l => if l = "" then det query else l

/-- Insert index `i` into an index list that is already sorted ascending by
score, placing `i` before the first strictly larger score (so an index
inserted after its tie-mates stays behind them: stability). -/
def insertAsc (scores : List ℚ) (i : Nat) : List Nat → List Nat
  | [] => [i]
  | j :: t => if scores.getD i 0 < scores.getD j 0 then i :: j :: t else j :: insertAsc scores i t

/-- `np.argsort(scores)`: indices `0..n-1` sorted ascending by score,
ties kept in index order (stable). -/
def argsort (scores : List ℚ) : List Nat :=
  (List.range scores.length).foldl (fun acc i => insertAsc scores i acc) []

/-- Python slice `xs[-k:]`: the last `min k n` elements, except that
`xs[-0:]` is the whole list (since `-0 == 0`). -/
def pyTakeLast (k : Nat) (xs : List Nat) : List Nat :=
  if k = 0 then xs else xs.drop (xs.length - k)

/-- Python `enumerate(xs, n)`. -/
def pyEnumFrom (n : Nat) : List α → List (Nat × α)
  | [] => []
  | x :: t => (n, x) :: pyEnumFrom (n + 1) t

/-- `np.argsort(scores)[-top_k:][::-1]` from `BM25Retriever.search`. -/
def bm25TopIdx (scores : List ℚ) (top_k : Nat) : List Nat :=
  (pyTakeLast top_k (argsort scores)).reverse

/-- The result-collection loop of `BM25Retriever.search`: for each
`(i, idx)` in `enumerate(top_indices)`, keep the document when
`idx < len(documents) and scores[idx] > 0`, with rank `i + 1`. -/
def bm25Select (scores : List ℚ) (docs : List Doc) (top_k : Nat) : List SR :=
  (pyEnumFrom 0 (bm25TopIdx scores top_k)).filterMap fun p =>
    if p.2 < docs.length ∧ 0 < scores.getD p.2 0 then
      some ⟨docs.getD p.2 ⟨"", none⟩, scores.getD p.2 0, p.1 + 1⟩
    else none

/-- The persisted/ in-memory state of `BM25Retriever`: the per-language
tokenized corpora and document lists.  The `BM25Okapi` models are derived
deterministically from the corpora (`bm25_fr` exists iff the French corpus
is non-empty), so they are not stored separately. -/
structure BM25State where
  tokenized_corpus_fr : List (List String)
  tokenized_corpus_ar : List (List String)
  documents_fr : List Doc
  documents_ar : List Doc
deriving DecidableEq, Repr

/-- `BM25Retriever.search`.  `pp` is the tokenizer adapter
(`TextProcessor.preprocess`), `det` the language classifier
(`TextProcessor.detect_language`), `scoresOf` the external
`BM25Okapi(corpus).get_scores(tokenized_query)` function. -/
def bm25Search (pp : String → String → List String) (det : String → String)
    (scoresOf : List (List String) → List String → List ℚ)
    (st : BM25State) (query : String) (top_k : Nat) (language : Option String) : List SR :=
  if pyBlank query then []
  else
    let lang := resolveLang det language query
    let tq := pp query lang
    if tq = [] then []
    else if lang = "fr" ∧ st.tokenized_corpus_fr ≠ [] then
      bm25Select (scoresOf st.tokenized_corpus_fr tq) st.documents_fr top_k
    else if lang = "ar" ∧ st.tokenized_corpus_ar ≠ [] then
      bm25Select (scoresOf st.tokenized_corpus_ar tq) st.documents_ar top_k
    else []

/-- `BM25Retriever.build_index`: partition `(text, document)` pairs by the
document's `language` tag (keeping only `'fr'` and `'ar'`), tokenize each
partition with its language, and drop documents whose token list is empty. -/
def bm25Build (pp : String → String → List String)
    (texts : List String) (docs : List Doc) : BM25State :=
  let pairs := texts.zip docs
  let fr := pairs.filter fun p => p.2.language = some "fr"
  let ar := pairs.filter fun p => p.2.language = some "ar"
  let tokFr := (fr.map fun p => (pp p.1 "fr", p.2)).filter fun q => q.1 ≠ []
  let tokAr := (ar.map fun p => (pp p.1 "ar", p.2)).filter fun q => q.1 ≠ []
  { tokenized_corpus_fr := tokFr.map Prod.fst
    tokenized_corpus_ar := tokAr.map Prod.fst
    documents_fr := tokFr.map Prod.snd
    documents_ar := tokAr.map Prod.snd }

/-- The in-memory state of `FAISSRetriever`: `self.index` (the stored
embedding matrix, `none` until built or loaded) and `self.documents`. -/
structure FaissState where
  index : Option (List (List ℚ))
  documents : List Doc
deriving DecidableEq, Repr

/-- Inner product of two vectors (`faiss.IndexFlatIP` scoring). -/
def innerProd (u v : List ℚ) : ℚ :=
  ((u.zip v).map fun p => p.1 * p.2).sum

/-- Insert index `i` into an index list sorted descending by score, placing
`i` before the first strictly smaller score (ties stay in insertion order,
i.e. ascending index — a modelling choice for faiss's unspecified
tie-breaking). -/
def insertDescIdx (scores : List ℚ) (i : Nat) : List Nat → List Nat
  | [] => [i]
  | j :: t => if scores.getD j 0 < scores.getD i 0 then i :: j :: t else j :: insertDescIdx scores i t

/-- Indices `0..n-1` sorted descending by score. -/
def argsortDesc (scores : List ℚ) : List Nat :=
  (List.range scores.length).foldl (fun acc i => insertDescIdx scores i acc) []

/-- `self.index.search(query_embedding, k)`: the top `k` stored vectors by
inner product with the query, as `(score, index)` pairs in descending
score order. -/
def faissIndexSearch (vecs : List (List ℚ)) (qe : List ℚ) (k : Nat) : List (ℚ × Nat) :=
  let scores := vecs.map (innerProd qe)
  ((argsortDesc scores).take k).map fun i => (scores.getD i 0, i)

/-- The language filter of `FAISSRetriever.search`:
`if language and document.get('language') != language: continue`. -/
def faissLangSkip (language : Option String) (d : Doc) : Bool :=
  pyTruthy language ∧ d.language ≠ language

/-- The result-collection loop of `FAISSRetriever.search`: skip indices out
of range, skip documents of the wrong language, append with rank
`len(results) + 1`, and break once `len(results) >= top_k`.  `cnt` is the
number of results collected so far. -/
def faissCollect (docs : List Doc) (language : Option String) (top_k : Nat) :
    List (ℚ × Nat) → Nat → List SR
  | [], _ => []
  | p :: rest, cnt =>
    if p.2 < docs.length then
      let d := docs.getD p.2 ⟨"", none⟩
      if faissLangSkip language d then faissCollect docs language top_k rest cnt
      else if top_k ≤ cnt + 1 then [⟨d, p.1, cnt + 1⟩]
      else ⟨d, p.1, cnt + 1⟩ :: faissCollect docs language top_k rest (cnt + 1)
    else faissCollect docs language top_k rest cnt

/-- `FAISSRetriever.search`.  `enc` is the composition of the external
sentence-transformers encoder with `faiss.normalize_L2` on the query
embedding.  With a (truthy) language filter the index is asked for
`top_k * 3` candidates, else `top_k`, capped at `ntotal`. -/
def faissSearch (enc : String → List ℚ) (st : FaissState)
    (query : String) (top_k : Nat) (language : Option String) : List SR :=
  match st.index with
  | none => []
  | some vecs =>
    if pyBlank query then []
    else
      let qe := enc query
      let search_k := if pyTruthy language then top_k * 3 else top_k
      let pairs := faissIndexSearch vecs qe (min search_k vecs.length)
      faissCollect st.documents language top_k pairs 0

/-- `FAISSRetriever.build_index`.  Note: unlike the BM25 build, this does
NOT partition by language — it only filters out blank texts; embeddings of
the kept texts (already L2-normalized inside `enc`) become the index.  A
`texts`/`documents` length mismatch raises `ValueError`. -/
def faissBuild (enc : String → List ℚ) (texts : List String) (docs : List Doc)
    (st : FaissState) : Except String FaissState :=
  if texts = [] ∨ docs = [] then .ok st
  else if texts.length ≠ docs.length then .error "Number of texts and documents must match"
  else
    let kept := (texts.zip docs).filter fun p => ¬ pyBlank p.1
    if kept = [] then .ok { st with documents := docs }
    else
      .ok { index := some (kept.map fun p => enc p.1)
            documents := kept.map Prod.snd }

/-- `HybridRetriever._normalize_scores`: min-max normalize the scores of a
result list to `[0, 1]`; when all scores are equal every score becomes
`1.0`; an empty list stays empty. -/
def normalizeScores : List SR → List SR
  | [] => []
  | r :: rs =>
    let minS := rs.foldl (fun a x => min a x.score) r.score
    let maxS := rs.foldl (fun a x => max a x.score) r.score
    if maxS = minS then (r :: rs).map fun x => { x with score := 1 }
    else (r :: rs).map fun x => { x with score := (x.score - minS) / (maxS - minS) }

/-- One entry of the `doc_scores` dictionary in
`HybridRetriever._combine_results` (the `combined_score` field is computed
at the end as the sum, so it is not stored here). -/
structure FusedEntry where
  document : Doc
  faiss_score : ℚ
  bm25_score : ℚ
deriving DecidableEq, Repr

/-- `doc_scores[doc_id] = value`: replace in place if the key is present
(dict update keeps insertion order), else append. -/
def dictInsert (k : String) (v : FusedEntry) :
    List (String × FusedEntry) → List (String × FusedEntry)
  | [] => [(k, v)]
  | (k', v') :: t => if k' = k then (k, v) :: t else (k', v') :: dictInsert k v t

/-- `doc_scores[doc_id]['bm25_score'] = s`: update the `bm25_score` field of
the entry at key `k`, leaving everything else in place. -/
def dictSetBm25 (k : String) (s : ℚ) :
    List (String × FusedEntry) → List (String × FusedEntry)
  | [] => []
  | (k', v') :: t =>
    if k' = k then (k', { v' with bm25_score := s }) :: t
    else (k', v') :: dictSetBm25 k s t

/-- `doc_id in doc_scores`. -/
def dictHasKey (k : String) (d : List (String × FusedEntry)) : Bool :=
  d.any fun p => p.1 = k

/-- The `doc_scores` dictionary after both accumulation loops of
`_combine_results`: first every FAISS result is inserted with
`faiss_score = score * faiss_weight` and `bm25_score = 0`; then every BM25
result either updates the `bm25_score` of an existing entry or is inserted
with `faiss_score = 0`. -/
def fusionDict (fw bw : ℚ) (faissR bm25R : List SR) : List (String × FusedEntry) :=
  let d1 := faissR.foldl
    (fun acc r => dictInsert r.document.id ⟨r.document, r.score * fw, 0⟩ acc) []
  bm25R.foldl
    (fun acc r =>
      if dictHasKey r.document.id acc then dictSetBm25 r.document.id (r.score * bw) acc
      else dictInsert r.document.id ⟨r.document, 0, r.score * bw⟩ acc)
    d1

/-- Combined score of a dictionary entry
(`data['combined_score'] = data['faiss_score'] + data['bm25_score']`). -/
def combinedScore (e : FusedEntry) : ℚ := e.faiss_score + e.bm25_score

/-- Stable insertion of an entry into a list sorted descending by combined
score.  The inserted entry originally precedes every element of the list,
so it walks past an element only when that element's score is strictly
greater: equal scores keep their original (insertion) order — the
behaviour of Python's stable `sorted(..., reverse=True)`. -/
def insertByScore (x : FusedEntry) : List FusedEntry → List FusedEntry
  | [] => [x]
  | y :: t => if combinedScore x < combinedScore y then y :: insertByScore x t else x :: y :: t

/-- `sorted(doc_scores.values(), key=combined_score, reverse=True)`
(stable). -/
def sortByScoreDesc : List FusedEntry → List FusedEntry
  | [] => []
  | x :: t => insertByScore x (sortByScoreDesc t)

/-- A fused result dictionary: `document`, `score` (the combined score),
the two per-source contributions, and the re-assigned `rank`. -/
structure HR where
  document : Doc
  score : ℚ
  faiss_score : ℚ
  bm25_score : ℚ
  rank : Nat
deriving DecidableEq, Repr

/-- The final formatting loop of `_combine_results`: truncate to `top_k`
and re-rank `1..`. -/
def formatFused (top_k : Nat) (sorted_entries : List FusedEntry) : List HR :=
  (pyEnumFrom 0 (sorted_entries.take top_k)).map fun p =>
    ⟨p.2.document, combinedScore p.2, p.2.faiss_score, p.2.bm25_score, p.1 + 1⟩

/-- `HybridRetriever._combine_results`: normalize both sources, accumulate
the `doc_scores` dictionary, sort by combined score descending, truncate
and re-rank. -/
def combineResults (fw bw : ℚ) (faissR bm25R : List SR) (top_k : Nat) : List HR :=
  formatFused top_k
    (sortByScoreDesc
      ((fusionDict fw bw (normalizeScores faissR) (normalizeScores bm25R)).map Prod.snd))

/-- The two shapes `HybridRetriever.search` can return: the untouched
result dictionaries of a single source (degraded mode / empty), or the
fused dictionaries produced by `_combine_results`. -/
inductive HybridOut where
  | passthrough : List SR → HybridOut
  | fused : List HR → HybridOut
deriving DecidableEq, Repr

/-- The branch logic of `HybridRetriever.search` given the outcomes of the
two sub-index searches.  An `Except.error` models an exception raised
inside a sub-index search; the surrounding `try/except` turns it into an
empty result list for that source. -/
def hybridCombine (fw bw : ℚ) (faissOut bm25Out : Except String (List SR))
    (top_k : Nat) : HybridOut :=
  let faiss_results := match faissOut with | .ok r => r | .error _ => []
  let bm25_results := match bm25Out with | .ok r => r | .error _ => []
  if faiss_results = [] ∧ bm25_results ≠ [] then .passthrough (bm25_results.take top_k)
  else if faiss_results ≠ [] ∧ bm25_results = [] then .passthrough (faiss_results.take top_k)
  else if faiss_results = [] ∧ bm25_results = [] then .passthrough []
  else .fused (combineResults fw bw faiss_results bm25_results top_k)

/-- `HybridRetriever.search` with the sub-search outcomes as parameters:
blank queries short-circuit to `[]` before any sub-search runs. -/
def hybridSearchE (fw bw : ℚ) (query : String)
    (faissOut bm25Out : Except String (List SR)) (top_k : Nat) : HybridOut :=
  if pyBlank query then .passthrough []
  else hybridCombine fw bw faissOut bm25Out top_k

/-- `HybridRetriever.search` end to end: resolve the language, over-fetch
`internal_top_k = max(top_k * 2, 10)` from both sub-indices (passing the
resolved language down), then apply the branch logic.  The sub-searches
are total in the model (each has its own internal `try/except` returning
`[]`), so they are passed as `Except.ok`. -/
def hybridSearchFull (pp : String → String → List String) (det : String → String)
    (scoresOf : List (List String) → List String → List ℚ) (enc : String → List ℚ)
    (bst : BM25State) (fst : FaissState) (fw bw : ℚ)
    (query : String) (top_k : Nat) (language : Option String) : HybridOut :=
  if pyBlank query then .passthrough []
  else
    let lang := resolveLang det language query
    let itk := max (top_k * 2) 10
    hybridCombine fw bw
      (.ok (faissSearch enc fst query itk (some lang)))
      (.ok (bm25Search pp det scoresOf bst query itk (some lang)))
      top_k

/-- The on-disk fate of a snapshot as seen by `load_index`: no file at the
path (or no path configured), a file that fails to deserialize, or a
readable snapshot. -/
inductive FileState (α : Type) where
  | missing : FileState α
  | corrupt : FileState α
  | present : α → FileState α
deriving DecidableEq, Repr

/-- `BM25Retriever._save_data`: the pickled dictionary holds exactly the
two tokenized corpora and the two document lists. -/
def bm25SaveData (st : BM25State) : BM25State := st

/-- `BM25Retriever.load_index`: `False` when the file is absent, `False`
when unpickling raises (state unchanged), `True` after restoring the four
fields and rebuilding the `BM25Okapi` models from the corpora (no
re-tokenization of any document text). -/
def bm25LoadIndex (st : BM25State) (file : FileState BM25State) : Bool × BM25State :=
  match file with
  | .missing => (false, st)
  | .corrupt => (false, st)
  | .present snap => (true, snap)

/-- `FAISSRetriever._save_index`: the faiss index file plus the pickled
document list. -/
def faissSaveIndex (st : FaissState) : FaissState := st

/-- `FAISSRetriever.load_index`: `False` when the index file is absent,
`False` when deserialization raises, `True` after restoring the index and
documents (no re-embedding of any document text). -/
def faissLoadIndex (st : FaissState) (file : FileState FaissState) : Bool × FaissState :=
  match file with
  | .missing => (false, st)
  | .corrupt => (false, st)
  | .present snap => (true, snap)

/-- A fetched `(score, index)` candidate survives the collection loop's
filters: its index is in range and its document passes the language
filter. -/
def candKeep (docs : List Doc) (language : Option String) (p : ℚ × Nat) : Bool :=
  decide (p.2 < docs.length) && ! faissLangSkip language (docs.getD p.2 ⟨"", none⟩)

/-- The corpus positions that `BM25Retriever.search` keeps, in output
order: the top indices with the in-range and positive-score filter
applied. -/
def selIdx (scores : List ℚ) (docs : List Doc) (top_k : Nat) : List Nat :=
  (bm25TopIdx scores top_k).filter fun i => decide (i < docs.length ∧ 0 < scores.getD i 0)

/-- Strict ascending order on corpus positions used by the (stable,
ascending) argsort model: smaller score first, ties by smaller position. -/
def idxLtKey (scores : List ℚ) (i j : Nat) : Prop :=
  scores.getD i 0 < scores.getD j 0 ∨ (scores.getD i 0 = scores.getD j 0 ∧ i < j)

/-- Strict descending order on corpus positions produced by reversing the
argsort: larger score first, ties by LARGER position — i.e. tied documents
come out in reverse corpus order. -/
def idxGtKey (scores : List ℚ) (i j : Nat) : Prop :=
  scores.getD j 0 < scores.getD i 0 ∨ (scores.getD j 0 = scores.getD i 0 ∧ j < i)

/-- Invariant of every `doc_scores` entry: the key is its document's id,
the `faiss_score` is either the missing-source `0` or `faiss_weight` times
the normalized score of a FAISS result with that id, and symmetrically for
`bm25_score`. -/
def entryOk (fw bw : ℚ) (nf nb : List SR) (p : String × FusedEntry) : Prop :=
  p.2.document.id = p.1 ∧
  (p.2.faiss_score = 0 ∨ ∃ s ∈ nf, s.document.id = p.1 ∧ p.2.faiss_score = s.score * fw) ∧
  (p.2.bm25_score = 0 ∨ ∃ s ∈ nb, s.document.id = p.1 ∧ p.2.bm25_score = s.score * bw)



/-- C9: a query that is empty or consists only of whitespace makes
`BM25Retriever.search`, `FAISSRetriever.search` and
`HybridRetriever.search` all return an empty list, raising no error. -/
theorem blank_query_empty_c9 (pp : String → String → List String) (det : String → String)
    (scoresOf : List (List String) → List String → List ℚ) (enc : String → List ℚ)
    (bst : BM25State) (fst : FaissState) (fw bw : ℚ) (q : String) (k : Nat)
    (lang : Option String) (hq : pyBlank q = true) :
    bm25Search pp det scoresOf bst q k lang = [] ∧
    faissSearch enc fst q k lang = [] ∧
    hybridSearchFull pp det scoresOf enc bst fst fw bw q k lang = .passthrough [] := by
  refine ⟨?_, ?_, ?_⟩
  · simp [bm25Search, hq]
  · cases hI : fst.index <;> simp [faissSearch, hI, hq]
  · simp [hybridSearchFull, hq]

/-- Witness for C9 at the whitespace query `" "` with concrete adapters,
states and parameters. -/
theorem blank_query_empty_c9_witness :
    pyBlank " " = true ∧
    (bm25Search (fun _ _ => []) (fun _ => "fr") (fun _ _ => []) ⟨[], [], [], []⟩ " " 3 none = [] ∧
     faissSearch (fun _ => []) ⟨none, []⟩ " " 3 none = [] ∧
     hybridSearchFull (fun _ _ => []) (fun _ => "fr") (fun _ _ => []) (fun _ => [])
       ⟨[], [], [], []⟩ ⟨none, []⟩ (1/2) (1/2) " " 3 none = .passthrough []) :=
  ⟨by decide,
   blank_query_empty_c9 (fun _ _ => []) (fun _ => "fr") (fun _ _ => []) (fun _ => [])
     ⟨[], [], [], []⟩ ⟨none, []⟩ (1/2) (1/2) " " 3 none (by decide)⟩

/-- C3: on a non-blank query, if exactly one sub-index search returns a
non-empty list, `HybridRetriever.search` returns that source's results
truncated to `top_k` untouched by any fusion math (the `passthrough`
constructor), and if both are empty it returns an empty list; no branch
raises. -/
theorem hybrid_degraded_c3 (fw bw : ℚ) (q : String) (f b : List SR) (k : Nat)
    (hq : pyBlank q = false) :
    (f = [] → b ≠ [] → hybridSearchE fw bw q (.ok f) (.ok b) k = .passthrough (b.take k)) ∧
    (f ≠ [] → b = [] → hybridSearchE fw bw q (.ok f) (.ok b) k = .passthrough (f.take k)) ∧
    (f = [] → b = [] → hybridSearchE fw bw q (.ok f) (.ok b) k = .passthrough []) := by
  refine ⟨fun hf hb => ?_, fun hf hb => ?_, fun hf hb => ?_⟩ <;>
    simp [hybridSearchE, hybridCombine, hq, hf, hb]

/-- Witness for C3: one BM25-only result passes through untruncated fusion
at `top_k = 1`, and the both-empty case returns the empty list. -/
theorem hybrid_degraded_c3_witness :
    pyBlank "q" = false ∧
    hybridSearchE (1/2) (1/2) "q" (.ok []) (.ok [⟨⟨"a", some "fr"⟩, 2, 1⟩]) 1
      = .passthrough [⟨⟨"a", some "fr"⟩, 2, 1⟩] :=
  ⟨by decide,
   (hybrid_degraded_c3 (1/2) (1/2) "q" [] [⟨⟨"a", some "fr"⟩, 2, 1⟩] 1 (by decide)).1
     rfl (by decide)⟩

/-- C8: an exception inside one sub-index search (modelled as
`Except.error`) is absorbed by `HybridRetriever.search`: the outcome is
exactly the one obtained from an empty result list for that source, the
other source's results are still returned (truncated) on a non-blank
query, and an error in both sources yields the empty list — never a
propagated exception (the model is a total function). -/
theorem hybrid_exception_isolation_c8 (fw bw : ℚ) (q e e' : String)
    (f b : List SR) (k : Nat) :
    (hybridSearchE fw bw q (.error e) (.ok b) k = hybridSearchE fw bw q (.ok []) (.ok b) k) ∧
    (hybridSearchE fw bw q (.ok f) (.error e) k = hybridSearchE fw bw q (.ok f) (.ok []) k) ∧
    (pyBlank q = false → b ≠ [] →
      hybridSearchE fw bw q (.error e) (.ok b) k = .passthrough (b.take k)) ∧
    (pyBlank q = false → f ≠ [] →
      hybridSearchE fw bw q (.ok f) (.error e) k = .passthrough (f.take k)) ∧
    (hybridSearchE fw bw q (.error e) (.error e') k = .passthrough []) := by
  refine ⟨rfl, rfl, fun hq hb => ?_, fun hq hf => ?_, ?_⟩
  · simp [hybridSearchE, hybridCombine, hq, hb]
  · simp [hybridSearchE, hybridCombine, hq, hf]
  · unfold hybridSearchE hybridCombine
    split <;> simp

/-- Witness for C8: with the FAISS source raising, the BM25 source's single
result is still returned. -/
theorem hybrid_exception_isolation_c8_witness :
    pyBlank "q" = false ∧
    hybridSearchE (1/2) (1/2) "q" (.error "boom") (.ok [⟨⟨"a", some "fr"⟩, 2, 1⟩]) 3
      = .passthrough [⟨⟨"a", some "fr"⟩, 2, 1⟩] :=
  ⟨by decide,
   (hybrid_exception_isolation_c8 (1/2) (1/2) "q" "boom" ""
       [] [⟨⟨"a", some "fr"⟩, 2, 1⟩] 3).2.2.1 (by decide) (by decide)⟩

/-- C7 counterexample: at the concrete initial states, `load_index` returns
the very same value (`False`) for a missing snapshot and for a corrupt
snapshot, in both retrievers — the return value does not distinguish the
two cases. -/
theorem load_result_indistinct_c7 :
    (bm25LoadIndex ⟨[], [], [], []⟩ .missing).1 = (bm25LoadIndex ⟨[], [], [], []⟩ .corrupt).1 ∧
    (faissLoadIndex ⟨none, []⟩ .missing).1 = (faissLoadIndex ⟨none, []⟩ .corrupt).1 :=
  ⟨rfl, rfl⟩

/-- C7 amended: `load_index` returns a boolean that distinguishes success
(`True`) from failure (`False`) only; both the missing-snapshot case and
the corrupt-snapshot case return `False` (they differ only in log
output). -/
theorem load_result_boolean_c7 (bst bsnap : BM25State) (fst fsnap : FaissState) :
    (bm25LoadIndex bst .missing).1 = false ∧
    (bm25LoadIndex bst .corrupt).1 = false ∧
    (bm25LoadIndex bst (.present bsnap)).1 = true ∧
    (faissLoadIndex fst .missing).1 = false ∧
    (faissLoadIndex fst .corrupt).1 = false ∧
    (faissLoadIndex fst (.present fsnap)).1 = true :=
  ⟨rfl, rfl, rfl, rfl, rfl, rfl⟩

/-- C5: saving a built index and loading the snapshot into a fresh
retriever succeeds and yields states whose searches (each sub-index and
the whole hybrid pipeline) agree exactly with the original — the snapshot
stores the tokenized corpora, document lists and index verbatim, and
loading derives the models from them without re-tokenizing or
re-embedding. -/
theorem persistence_roundtrip_c5 (pp : String → String → List String) (det : String → String)
    (scoresOf : List (List String) → List String → List ℚ) (enc : String → List ℚ)
    (bst bfresh : BM25State) (fst ffresh : FaissState) (fw bw : ℚ)
    (q : String) (k : Nat) (lang : Option String) :
    (bm25LoadIndex bfresh (.present (bm25SaveData bst))).1 = true ∧
    bm25Search pp det scoresOf (bm25LoadIndex bfresh (.present (bm25SaveData bst))).2 q k lang
      = bm25Search pp det scoresOf bst q k lang ∧
    (faissLoadIndex ffresh (.present (faissSaveIndex fst))).1 = true ∧
    faissSearch enc (faissLoadIndex ffresh (.present (faissSaveIndex fst))).2 q k lang
      = faissSearch enc fst q k lang ∧
    hybridSearchFull pp det scoresOf enc
      (bm25LoadIndex bfresh (.present (bm25SaveData bst))).2
      (faissLoadIndex ffresh (.present (faissSaveIndex fst))).2 fw bw q k lang
      = hybridSearchFull pp det scoresOf enc bst fst fw bw q k lang :=
  ⟨rfl, rfl, rfl, rfl, rfl⟩

theorem insertDescIdx_length (s : List ℚ) (i : Nat) :
    ∀ l, (insertDescIdx s i l).length = l.length + 1 := by
  intro l
  induction l with
  | nil => rfl
  | cons j t ih => simp only [insertDescIdx]; split <;> simp [ih]

theorem argsortDesc_length (s : List ℚ) : (argsortDesc s).length = s.length := by
  have key : ∀ (l acc : List Nat),
      (l.foldl (fun acc i => insertDescIdx s i acc) acc).length = acc.length + l.length := by
    intro l
    induction l with
    | nil => intro acc; simp
    | cons x t ih =>
      intro acc
      simp only [List.foldl_cons, List.length_cons]
      rw [ih, insertDescIdx_length]
      omega
  simpa using key (List.range s.length) []

theorem faissIndexSearch_length (vecs : List (List ℚ)) (qe : List ℚ) (k : Nat) :
    (faissIndexSearch vecs qe k).length = min k vecs.length := by
  unfold faissIndexSearch
  simp [argsortDesc_length]

theorem faissCollect_length_le (docs : List Doc) (lang : Option String) (k : Nat) :
    ∀ (pairs : List (ℚ × Nat)) (cnt : Nat), cnt < k →
      (faissCollect docs lang k pairs cnt).length ≤ k - cnt := by
  intro pairs
  induction pairs with
  | nil => intro cnt _; simp [faissCollect]
  | cons p rest ih =>
    intro cnt h
    simp only [faissCollect]
    split
    · split
      · exact ih cnt h
      · split
        · simp only [List.length_cons, List.length_nil]; omega
        · have h2 : cnt + 1 < k := by omega
          have := ih (cnt + 1) h2
          simp only [List.length_cons]
          omega
    · exact ih cnt h

theorem faissCollect_length_le_countP (docs : List Doc) (lang : Option String) (k : Nat) :
    ∀ (pairs : List (ℚ × Nat)) (cnt : Nat),
      (faissCollect docs lang k pairs cnt).length ≤ pairs.countP (candKeep docs lang) := by
  intro pairs
  induction pairs with
  | nil => intro cnt; simp [faissCollect]
  | cons p rest ih =>
    intro cnt
    simp only [faissCollect, List.countP_cons]
    split
    · split
      · have hck : candKeep docs lang p = false := by
          simp only [candKeep]
          simp_all
        rw [hck]
        simpa using ih cnt
      · have hck : candKeep docs lang p = true := by
          simp only [candKeep]
          simp_all
        rw [hck]
        split
        · simp
        · simp only [List.length_cons, if_true]
          have := ih (cnt + 1)
          omega
    · have hck : candKeep docs lang p = false := by
        simp only [candKeep]
        simp_all
      rw [hck]
      simpa using ih cnt

/-- C4: with a (truthy) language filter, `FAISSRetriever.search` fetches
exactly `min(top_k * 3, ntotal)` candidates from the index before
filtering, then the collection loop returns at most `top_k` results, and
never more results than there are fetched candidates that survive the
range and language filters — so when fewer than `top_k` matching documents
are among the over-fetched candidates, fewer than `top_k` results are
silently returned. -/
theorem faiss_overfetch_c4 (enc : String → List ℚ) (st : FaissState) (query : String)
    (top_k : Nat) (lang : Option String) (vecs : List (List ℚ))
    (hL : pyTruthy lang = true) (hI : st.index = some vecs) (hQ : pyBlank query = false) :
    (faissIndexSearch vecs (enc query) (min (top_k * 3) vecs.length)).length
        = min (top_k * 3) vecs.length ∧
    faissSearch enc st query top_k lang
      = faissCollect st.documents lang top_k
          (faissIndexSearch vecs (enc query) (min (top_k * 3) vecs.length)) 0 ∧
    (faissSearch enc st query top_k lang).length ≤ top_k ∧
    (faissSearch enc st query top_k lang).length
      ≤ (faissIndexSearch vecs (enc query) (min (top_k * 3) vecs.length)).countP
          (candKeep st.documents lang) := by
  have heq : faissSearch enc st query top_k lang
      = faissCollect st.documents lang top_k
          (faissIndexSearch vecs (enc query) (min (top_k * 3) vecs.length)) 0 := by
    simp [faissSearch, hI, hQ, hL]
  refine ⟨?_, heq, ?_, ?_⟩
  · rw [faissIndexSearch_length]
    omega
  · rw [heq]
    rcases Nat.eq_zero_or_pos top_k with h0 | hpos
    · subst h0
      have hnil : faissIndexSearch vecs (enc query) (min (0 * 3) vecs.length) = [] := by
        have hl := faissIndexSearch_length vecs (enc query) (min (0 * 3) vecs.length)
        simp only [Nat.zero_mul, Nat.zero_min, Nat.min_self] at hl ⊢
        exact List.length_eq_zero.mp (by simpa using hl)
      rw [hnil]
      simp [faissCollect]
    · have h := faissCollect_length_le st.documents lang top_k
        (faissIndexSearch vecs (enc query) (min (top_k * 3) vecs.length)) 0 hpos
      simpa using h
  · rw [heq]
    exact faissCollect_length_le_countP st.documents lang top_k
      (faissIndexSearch vecs (enc query) (min (top_k * 3) vecs.length)) 0

/-- Witness for C4: a two-vector index with one French and one Arabic
document, searched with a French filter at `top_k = 1`: three candidates
requested but capped at `ntotal = 2`, one result returned. -/
theorem faiss_overfetch_c4_witness :
    pyTruthy (some "fr") = true ∧
    (FaissState.mk (some [[1], [1]]) [⟨"x", some "fr"⟩, ⟨"y", some "ar"⟩]).index
      = some [[1], [1]] ∧
    pyBlank "q" = false ∧
    ((faissIndexSearch [[1], [1]] ((fun _ => [1]) "q") (min (1 * 3) ([[1], [1]] : List (List ℚ)).length)).length
        = min (1 * 3) ([[1], [1]] : List (List ℚ)).length ∧
      faissSearch (fun _ => [1]) ⟨some [[1], [1]], [⟨"x", some "fr"⟩, ⟨"y", some "ar"⟩]⟩ "q" 1 (some "fr")
        = faissCollect [⟨"x", some "fr"⟩, ⟨"y", some "ar"⟩] (some "fr") 1
            (faissIndexSearch [[1], [1]] ((fun _ => [1]) "q") (min (1 * 3) ([[1], [1]] : List (List ℚ)).length)) 0 ∧
      (faissSearch (fun _ => [1]) ⟨some [[1], [1]], [⟨"x", some "fr"⟩, ⟨"y", some "ar"⟩]⟩ "q" 1 (some "fr")).length ≤ 1 ∧
      (faissSearch (fun _ => [1]) ⟨some [[1], [1]], [⟨"x", some "fr"⟩, ⟨"y", some "ar"⟩]⟩ "q" 1 (some "fr")).length
        ≤ (faissIndexSearch [[1], [1]] ((fun _ => [1]) "q") (min (1 * 3) ([[1], [1]] : List (List ℚ)).length)).countP
            (candKeep [⟨"x", some "fr"⟩, ⟨"y", some "ar"⟩] (some "fr"))) :=
  ⟨by decide, rfl, by decide,
   faiss_overfetch_c4 (fun _ => [1]) ⟨some [[1], [1]], [⟨"x", some "fr"⟩, ⟨"y", some "ar"⟩]⟩
     "q" 1 (some "fr") [[1], [1]] (by decide) rfl (by decide)⟩

theorem mem_bm25Build_fr {pp : String → String → List String} {texts : List String}
    {docs : List Doc} {d : Doc} (hd : d ∈ (bm25Build pp texts docs).documents_fr) :
    d.language = some "fr" := by
  simp only [bm25Build, List.mem_map, List.mem_filter, decide_eq_true_eq] at hd
  obtain ⟨q, ⟨hq, _⟩, rfl⟩ := hd
  obtain ⟨p, hp, rfl⟩ := hq
  exact hp.2

theorem mem_bm25Build_ar {pp : String → String → List String} {texts : List String}
    {docs : List Doc} {d : Doc} (hd : d ∈ (bm25Build pp texts docs).documents_ar) :
    d.language = some "ar" := by
  simp only [bm25Build, List.mem_map, List.mem_filter, decide_eq_true_eq] at hd
  obtain ⟨q, ⟨hq, _⟩, rfl⟩ := hd
  obtain ⟨p, hp, rfl⟩ := hq
  exact hp.2

theorem faissCollect_language (docs : List Doc) (lang : Option String) (k : Nat)
    (hL : pyTruthy lang = true) :
    ∀ (pairs : List (ℚ × Nat)) (cnt : Nat) (r : SR),
      r ∈ faissCollect docs lang k pairs cnt → r.document.language = lang := by
  intro pairs
  induction pairs with
  | nil => intro cnt r h; simp [faissCollect] at h
  | cons p rest ih =>
    intro cnt r h
    simp only [faissCollect] at h
    split at h
    · split at h
      · exact ih cnt r h
      · rename_i hin hskip
        have hd : (docs.getD p.2 ⟨"", none⟩).language = lang := by
          by_contra hne
          refine hskip ?_
          simp only [faissLangSkip, decide_eq_true_eq]
          exact ⟨hL, hne⟩
        split at h
        · simp only [List.mem_singleton] at h
          subst h
          exact hd
        · simp only [List.mem_cons] at h
          rcases h with h | h
          · subst h; exact hd
          · exact ih (cnt + 1) r h
    · exact ih cnt r h

/-- C6 counterexample: `FAISSRetriever.build_index` does not partition by
language — a document tagged `'en'` (neither `'fr'` nor `'ar'`) is kept in
the vector store by `build`, and an unfiltered `search` call returns it in
the candidate pool, contradicting the claim that such a document appears
in no vector-index candidate pool returned by search. -/
theorem faiss_language_leak_c6 :
    (⟨"e", some "en"⟩ : Doc).language ≠ some "fr" ∧
    (⟨"e", some "en"⟩ : Doc).language ≠ some "ar" ∧
    faissBuild (fun _ => [1]) ["hello"] [⟨"e", some "en"⟩] ⟨none, []⟩
      = .ok ⟨some [[1]], [⟨"e", some "en"⟩]⟩ ∧
    faissSearch (fun _ => [1]) ⟨some [[1]], [⟨"e", some "en"⟩]⟩ "hello" 3 none
      = [⟨⟨"e", some "en"⟩, 1, 1⟩] := by
  refine ⟨by decide, by decide, rfl, ?_⟩
  have hq : pyBlank "hello" = false := by decide
  norm_num [faissSearch, hq, faissIndexSearch, argsortDesc, insertDescIdx, innerProd,
    faissCollect, faissLangSkip, pyTruthy, List.getD]

/-- C6 amended: a document whose language is neither `'fr'` nor `'ar'` is
excluded from both BM25 per-language corpora by `BM25Retriever.build_index`;
and a vector search carrying a truthy language filter only ever returns
documents of exactly the filtered language (so such a document is excluded
from every `'fr'`- or `'ar'`-filtered vector search) — but it remains in
the vector store itself, and unfiltered searches can return it. -/
theorem language_partition_c6 (pp : String → String → List String)
    (texts : List String) (docs : List Doc) (d : Doc)
    (enc : String → List ℚ) (st : FaissState) (query : String) (k : Nat)
    (lang : Option String)
    (hfr : d.language ≠ some "fr") (har : d.language ≠ some "ar")
    (hL : pyTruthy lang = true) :
    d ∉ (bm25Build pp texts docs).documents_fr ∧
    d ∉ (bm25Build pp texts docs).documents_ar ∧
    (∀ r ∈ faissSearch enc st query k lang, r.document.language = lang) := by
  refine ⟨fun hd => hfr (mem_bm25Build_fr hd), fun hd => har (mem_bm25Build_ar hd), ?_⟩
  intro r hr
  cases hI : st.index with
  | none => rw [faissSearch] at hr; rw [hI] at hr; simp at hr
  | some vecs =>
    rw [faissSearch] at hr
    rw [hI] at hr
    by_cases hq : pyBlank query
    · simp [hq] at hr
    · simp only [hq, Bool.false_eq_true, if_false] at hr
      exact faissCollect_language st.documents lang k hL _ 0 r hr

/-- Witness for C6 amended: with a built two-language state and a French
filter, the single returned document is French, and an `'en'` document is
in neither BM25 partition. -/
theorem language_partition_c6_witness :
    ((⟨"e", some "en"⟩ : Doc).language ≠ some "fr" ∧
     (⟨"e", some "en"⟩ : Doc).language ≠ some "ar" ∧
     pyTruthy (some "fr") = true) ∧
    ((⟨"e", some "en"⟩ : Doc) ∉
        (bm25Build (fun _ _ => ["t"]) ["x"] [⟨"a", some "fr"⟩]).documents_fr ∧
     (⟨"e", some "en"⟩ : Doc) ∉
        (bm25Build (fun _ _ => ["t"]) ["x"] [⟨"a", some "fr"⟩]).documents_ar ∧
     (∀ r ∈ faissSearch (fun _ => [1])
         ⟨some [[1], [1]], [⟨"a", some "fr"⟩, ⟨"e", some "en"⟩]⟩ "q" 3 (some "fr"),
       r.document.language = some "fr")) :=
  ⟨⟨by decide, by decide, by decide⟩,
   language_partition_c6 (fun _ _ => ["t"]) ["x"] [⟨"a", some "fr"⟩] ⟨"e", some "en"⟩
     (fun _ => [1]) ⟨some [[1], [1]], [⟨"a", some "fr"⟩, ⟨"e", some "en"⟩]⟩ "q" 3
     (some "fr") (by decide) (by decide) (by decide)⟩

theorem bm25Search_unsupported (pp : String → String → List String) (det : String → String)
    (scoresOf : List (List String) → List String → List ℚ) (bst : BM25State)
    (query : String) (k : Nat) (language : Option String) (L : String)
    (hres : resolveLang det language query = L) (hfr : L ≠ "fr") (har : L ≠ "ar") :
    bm25Search pp det scoresOf bst query k language = [] := by
  unfold bm25Search
  by_cases hq : pyBlank query
  · simp [hq]
  · simp [hq, hres, hfr, har]

theorem faissCollect_all_skipped (docs : List Doc) (lang : Option String) (k : Nat)
    (hall : ∀ i, i < docs.length → faissLangSkip lang (docs.getD i ⟨"", none⟩) = true) :
    ∀ (pairs : List (ℚ × Nat)) (cnt : Nat), faissCollect docs lang k pairs cnt = [] := by
  intro pairs
  induction pairs with
  | nil => intro cnt; simp [faissCollect]
  | cons p rest ih =>
    intro cnt
    simp only [faissCollect]
    split
    · rename_i hin
      rw [hall p.2 hin]
      simp [ih cnt]
    · exact ih cnt

theorem faissSearch_unsupported (enc : String → List ℚ) (fst : FaissState)
    (query : String) (L : String) (k : Nat) (hne : L ≠ "")
    (hdocs : ∀ d ∈ fst.documents, d.language ≠ some L) :
    faissSearch enc fst query k (some L) = [] := by
  cases hI : fst.index with
  | none => simp [faissSearch, hI]
  | some vecs =>
    by_cases hq : pyBlank query
    · simp [faissSearch, hI, hq]
    · simp only [faissSearch, hI, hq, Bool.false_eq_true, if_false]
      apply faissCollect_all_skipped
      intro i hi
      have hmem : fst.documents.getD i ⟨"", none⟩ ∈ fst.documents := by
        rw [List.getD_eq_getElem fst.documents ⟨"", none⟩ hi]
        exact List.getElem_mem hi
      have hd := hdocs _ hmem
      simp only [faissLangSkip, decide_eq_true_eq]
      exact ⟨by simp [pyTruthy, hne], hd⟩

/-- C10: when the resolved query language `L` is neither `'fr'` nor `'ar'`
(for example `'en'` from the detector) and — as after a language-partitioned
ingest — every stored vector document is tagged `'fr'` or `'ar'`,
`BM25Retriever.search` returns an empty list (no BM25 branch handles `L`),
every FAISS search filtered on `L` returns an empty list (the filter
excludes all stored documents), and `HybridRetriever.search` returns an
empty list even though both indices contain documents. -/
theorem unsupported_language_empty_c10 (pp : String → String → List String)
    (det : String → String) (scoresOf : List (List String) → List String → List ℚ)
    (enc : String → List ℚ) (bst : BM25State) (fst : FaissState) (fw bw : ℚ)
    (query : String) (k k' : Nat) (language : Option String) (L : String)
    (hres : resolveLang det language query = L)
    (hfr : L ≠ "fr") (har : L ≠ "ar") (hne : L ≠ "")
    (hdocs : ∀ d ∈ fst.documents, d.language = some "fr" ∨ d.language = some "ar") :
    bm25Search pp det scoresOf bst query k language = [] ∧
    faissSearch enc fst query k' (some L) = [] ∧
    hybridSearchFull pp det scoresOf enc bst fst fw bw query k language = .passthrough [] := by
  have hdocs' : ∀ d ∈ fst.documents, d.language ≠ some L := by
    intro d hd
    rcases hdocs d hd with h | h <;> rw [h] <;> simp [Option.some_inj] <;> intro hcon
    · exact hfr hcon.symm
    · exact har hcon.symm
  have hb : ∀ kk, bm25Search pp det scoresOf bst query kk (some L) = [] := by
    intro kk
    apply bm25Search_unsupported pp det scoresOf bst query kk (some L) L _ hfr har
    simp [resolveLang, hne]
  have hf : ∀ kk, faissSearch enc fst query kk (some L) = [] :=
    fun kk => faissSearch_unsupported enc fst query L kk hne hdocs'
  refine ⟨bm25Search_unsupported pp det scoresOf bst query k language L hres hfr har,
    hf k', ?_⟩
  unfold hybridSearchFull
  by_cases hq : pyBlank query
  · simp [hq]
  · simp only [hq, Bool.false_eq_true, if_false, hres]
    rw [hb, hf]
    simp [hybridCombine]

/-- Witness for C10: the detector classifies the query as `'en'`, the
stored documents are French, and all three searches come back empty. -/
theorem unsupported_language_empty_c10_witness :
    (resolveLang (fun _ => "en") none "hello" = "en" ∧
     ("en" : String) ≠ "fr" ∧ ("en" : String) ≠ "ar" ∧ ("en" : String) ≠ "" ∧
     (∀ d ∈ (FaissState.mk (some [[1]]) [⟨"a", some "fr"⟩]).documents,
       d.language = some "fr" ∨ d.language = some "ar")) ∧
    (bm25Search (fun q _ => [q]) (fun _ => "en") (fun c _ => c.map fun _ => (1 : ℚ))
        ⟨[["t"]], [], [⟨"a", some "fr"⟩], []⟩ "hello" 3 none = [] ∧
     faissSearch (fun _ => [1]) ⟨some [[1]], [⟨"a", some "fr"⟩]⟩ "hello" 20 (some "en") = [] ∧
     hybridSearchFull (fun q _ => [q]) (fun _ => "en") (fun c _ => c.map fun _ => (1 : ℚ))
        (fun _ => [1]) ⟨[["t"]], [], [⟨"a", some "fr"⟩], []⟩ ⟨some [[1]], [⟨"a", some "fr"⟩]⟩
        (1/2) (1/2) "hello" 3 none = .passthrough []) :=
  ⟨⟨rfl, by decide, by decide, by decide, by decide⟩,
   unsupported_language_empty_c10 (fun q _ => [q]) (fun _ => "en")
     (fun c _ => c.map fun _ => (1 : ℚ)) (fun _ => [1])
     ⟨[["t"]], [], [⟨"a", some "fr"⟩], []⟩ ⟨some [[1]], [⟨"a", some "fr"⟩]⟩
     (1/2) (1/2) "hello" 3 20 none "en" rfl (by decide) (by decide) (by decide) (by decide)⟩

theorem insertAsc_mem (s : List ℚ) (i : Nat) :
    ∀ (l : List Nat) (x : Nat), x ∈ insertAsc s i l → x = i ∨ x ∈ l := by
  intro l
  induction l with
  | nil => intro x hx; simp [insertAsc] at hx; exact Or.inl hx
  | cons j t ih =>
    intro x hx
    simp only [insertAsc] at hx
    split at hx
    · simp only [List.mem_cons] at hx
      rcases hx with h | h | h
      · exact Or.inl h
      · exact Or.inr (List.mem_cons.mpr (Or.inl h))
      · exact Or.inr (List.mem_cons.mpr (Or.inr h))
    · simp only [List.mem_cons] at hx
      rcases hx with h | h
      · exact Or.inr (List.mem_cons.mpr (Or.inl h))
      · rcases ih x h with h' | h'
        · exact Or.inl h'
        · exact Or.inr (List.mem_cons.mpr (Or.inr h'))

theorem insertAsc_pairwise (s : List ℚ) (i : Nat) :
    ∀ l : List Nat, l.Pairwise (idxLtKey s) → (∀ j ∈ l, j < i) →
      (insertAsc s i l).Pairwise (idxLtKey s) := by
  intro l
  induction l with
  | nil => intro _ _; simp [insertAsc]
  | cons j t ih =>
    intro hp hlt
    rcases List.pairwise_cons.mp hp with ⟨hjall, hpt⟩
    simp only [insertAsc]
    split
    · rename_i hij
      refine List.pairwise_cons.mpr ⟨?_, hp⟩
      intro x hx
      rcases List.mem_cons.mp hx with rfl | hx
      · exact Or.inl hij
      · rcases hjall x hx with hlt' | ⟨heq, _⟩
        · exact Or.inl (lt_trans hij hlt')
        · exact Or.inl (heq ▸ hij)
    · rename_i hij
      refine List.pairwise_cons.mpr
        ⟨?_, ih hpt fun x hx => hlt x (List.mem_cons_of_mem j hx)⟩
      intro x hx
      rcases insertAsc_mem s i t x hx with rfl | hx
      · rcases lt_or_eq_of_le (not_lt.mp hij) with h | h
        · exact Or.inl h
        · exact Or.inr ⟨h, hlt j (List.mem_cons_self j t)⟩
      · exact hjall x hx

theorem foldl_insertAsc_pairwise (s : List ℚ) :
    ∀ (l acc : List Nat), acc.Pairwise (idxLtKey s) → l.Pairwise (· < ·) →
      (∀ i ∈ l, ∀ j ∈ acc, j < i) →
      (l.foldl (fun a i => insertAsc s i a) acc).Pairwise (idxLtKey s) := by
  intro l
  induction l with
  | nil => intro acc hacc _ _; simpa using hacc
  | cons i t ih =>
    intro acc hacc hl hcross
    simp only [List.foldl_cons]
    rcases List.pairwise_cons.mp hl with ⟨hiall, hlt⟩
    apply ih
    · exact insertAsc_pairwise s i acc hacc (hcross i (List.mem_cons_self i t))
    · exact hlt
    · intro i' hi' j hj
      rcases insertAsc_mem s i acc j hj with rfl | hj'
      · exact hiall i' hi'
      · exact hcross i' (List.mem_cons_of_mem i hi') j hj'

theorem argsort_pairwise (s : List ℚ) : (argsort s).Pairwise (idxLtKey s) := by
  refine foldl_insertAsc_pairwise s (List.range s.length) [] List.Pairwise.nil
    (List.pairwise_lt_range s.length) ?_
  intro i _ j hj
  simp at hj

theorem pyTakeLast_sublist (k : Nat) (xs : List Nat) : List.Sublist (pyTakeLast k xs) xs := by
  unfold pyTakeLast
  split
  · exact List.Sublist.refl xs
  · exact List.drop_sublist _ xs

theorem bm25TopIdx_pairwise (scores : List ℚ) (k : Nat) :
    (bm25TopIdx scores k).Pairwise (idxGtKey scores) := by
  unfold bm25TopIdx
  rw [List.pairwise_reverse]
  have h := (argsort_pairwise scores).sublist (pyTakeLast_sublist k (argsort scores))
  exact h.imp fun hab => hab

theorem selIdx_pairwise (scores : List ℚ) (docs : List Doc) (k : Nat) :
    (selIdx scores docs k).Pairwise (idxGtKey scores) := by
  unfold selIdx
  exact (bm25TopIdx_pairwise scores k).sublist (List.filter_sublist _)

theorem pyEnumFrom_length : ∀ (l : List α) (n : Nat), (pyEnumFrom n l).length = l.length := by
  intro l
  induction l with
  | nil => intro n; rfl
  | cons x t ih => intro n; simp [pyEnumFrom, ih]

theorem bm25TopIdx_length_le (scores : List ℚ) (k : Nat) (hk : 1 ≤ k) :
    (bm25TopIdx scores k).length ≤ k := by
  unfold bm25TopIdx pyTakeLast
  rw [List.length_reverse]
  split
  · omega
  · rw [List.length_drop]
    omega

theorem bm25Select_map_doc (scores : List ℚ) (docs : List Doc) (k : Nat) :
    (bm25Select scores docs k).map SR.document
        = (selIdx scores docs k).map (fun i => docs.getD i ⟨"", none⟩) := by
  unfold bm25Select selIdx
  generalize bm25TopIdx scores k = l
  suffices h : ∀ (l : List Nat) (n : Nat),
      ((pyEnumFrom n l).filterMap fun p =>
          if p.2 < docs.length ∧ 0 < scores.getD p.2 0 then
            some (SR.mk (docs.getD p.2 ⟨"", none⟩) (scores.getD p.2 0) (p.1 + 1))
          else none).map SR.document
        = (l.filter fun i => decide (i < docs.length ∧ 0 < scores.getD i 0)).map
            (fun i => docs.getD i ⟨"", none⟩) from h l 0
  intro l
  induction l with
  | nil => intro n; rfl
  | cons x t ih =>
    intro n
    rw [show pyEnumFrom n (x :: t) = (n, x) :: pyEnumFrom (n + 1) t from rfl]
    by_cases hx : x < docs.length ∧ 0 < scores.getD x 0
    · rw [List.filterMap_cons_some (by dsimp only; rw [if_pos hx]),
          List.filter_cons_of_pos (by simpa using hx),
          List.map_cons, List.map_cons, ih (n + 1)]
    · rw [List.filterMap_cons_none (by dsimp only; rw [if_neg hx]),
          List.filter_cons_of_neg (by simpa using hx),
          ih (n + 1)]

theorem bm25Select_map_score (scores : List ℚ) (docs : List Doc) (k : Nat) :
    (bm25Select scores docs k).map SR.score
        = (selIdx scores docs k).map (fun i => scores.getD i 0) := by
  unfold bm25Select selIdx
  generalize bm25TopIdx scores k = l
  suffices h : ∀ (l : List Nat) (n : Nat),
      ((pyEnumFrom n l).filterMap fun p =>
          if p.2 < docs.length ∧ 0 < scores.getD p.2 0 then
            some (SR.mk (docs.getD p.2 ⟨"", none⟩) (scores.getD p.2 0) (p.1 + 1))
          else none).map SR.score
        = (l.filter fun i => decide (i < docs.length ∧ 0 < scores.getD i 0)).map
            (fun i => scores.getD i 0) from h l 0
  intro l
  induction l with
  | nil => intro n; rfl
  | cons x t ih =>
    intro n
    rw [show pyEnumFrom n (x :: t) = (n, x) :: pyEnumFrom (n + 1) t from rfl]
    by_cases hx : x < docs.length ∧ 0 < scores.getD x 0
    · rw [List.filterMap_cons_some (by dsimp only; rw [if_pos hx]),
          List.filter_cons_of_pos (by simpa using hx),
          List.map_cons, List.map_cons, ih (n + 1)]
    · rw [List.filterMap_cons_none (by dsimp only; rw [if_neg hx]),
          List.filter_cons_of_neg (by simpa using hx),
          ih (n + 1)]

theorem bm25Select_pos (scores : List ℚ) (docs : List Doc) (k : Nat) :
    ∀ r ∈ bm25Select scores docs k, 0 < r.score := by
  intro r hr
  unfold bm25Select at hr
  rcases List.mem_filterMap.mp hr with ⟨p, _, hf⟩
  split at hf
  · rename_i hcond
    cases hf
    exact hcond.2
  · cases hf

theorem bm25Select_length_le (scores : List ℚ) (docs : List Doc) (k : Nat) (hk : 1 ≤ k) :
    (bm25Select scores docs k).length ≤ k := by
  unfold bm25Select
  calc ((pyEnumFrom 0 (bm25TopIdx scores k)).filterMap _).length
      ≤ (pyEnumFrom 0 (bm25TopIdx scores k)).length := List.length_filterMap_le _ _
    _ = (bm25TopIdx scores k).length := pyEnumFrom_length _ 0
    _ ≤ k := bm25TopIdx_length_le scores k hk

theorem bm25Select_sorted (scores : List ℚ) (docs : List Doc) (k : Nat) :
    (bm25Select scores docs k).Pairwise (fun a b => b.score ≤ a.score) := by
  have hmap := bm25Select_map_score scores docs k
  have hpw : ((selIdx scores docs k).map fun i => scores.getD i 0).Pairwise
      (fun x y => y ≤ x) := by
    rw [List.pairwise_map]
    refine (selIdx_pairwise scores docs k).imp ?_
    intro a b h
    rcases h with h | ⟨h, _⟩
    · exact le_of_lt h
    · exact le_of_eq h
  rw [← hmap, List.pairwise_map] at hpw
  exact hpw

/-- C2 counterexample: a built French corpus of two documents whose BM25
scores on the query are identical (both `2`): `BM25Retriever.search`
returns them as `[d1, d0]` — the reverse of their original corpus order
`[d0, d1]` — because the code reverses a stable ascending `argsort`.  The
claim that tied documents are returned in original corpus order is false. -/
theorem bm25_tie_order_counterexample_c2 :
    bm25Search (fun q _ => [q]) (fun _ => "fr") (fun _ _ => [2, 2])
        ⟨[["t"], ["u"]], [], [⟨"d0", some "fr"⟩, ⟨"d1", some "fr"⟩], []⟩ "query" 2 (some "fr")
      = [⟨⟨"d1", some "fr"⟩, 2, 1⟩, ⟨⟨"d0", some "fr"⟩, 2, 2⟩] ∧
    (bm25Search (fun q _ => [q]) (fun _ => "fr") (fun _ _ => [2, 2])
        ⟨[["t"], ["u"]], [], [⟨"d0", some "fr"⟩, ⟨"d1", some "fr"⟩], []⟩ "query" 2
        (some "fr")).map (fun r => r.document.id)
      ≠ ["d0", "d1"] := by
  refine ⟨by decide, by decide⟩

/-- C2 amended: for every query against a built single-language corpus and
`top_k ≥ 1`, `BM25Retriever.search` returns at most `top_k` results, every
result has a strictly positive BM25 score, results are sorted descending
by score, and the result is always either empty or exactly `bm25Select` of
one language's scores and documents; `bm25Select` lists the corpus
positions `selIdx` in an order that is strictly descending on score with
ties broken by LARGER corpus position first — i.e. tied documents appear
in reverse original corpus order (not original order as claimed).
Determinism across repeated identical queries holds because the function
is pure. -/
theorem bm25_search_ranking_c2 (pp : String → String → List String) (det : String → String)
    (scoresOf : List (List String) → List String → List ℚ) (st : BM25State)
    (query : String) (k : Nat) (language : Option String) (hk : 1 ≤ k) :
    (bm25Search pp det scoresOf st query k language).length ≤ k ∧
    (∀ r ∈ bm25Search pp det scoresOf st query k language, 0 < r.score) ∧
    (bm25Search pp det scoresOf st query k language).Pairwise
      (fun a b => b.score ≤ a.score) ∧
    (bm25Search pp det scoresOf st query k language = [] ∨
      bm25Search pp det scoresOf st query k language
        = bm25Select (scoresOf st.tokenized_corpus_fr
            (pp query (resolveLang det language query))) st.documents_fr k ∨
      bm25Search pp det scoresOf st query k language
        = bm25Select (scoresOf st.tokenized_corpus_ar
            (pp query (resolveLang det language query))) st.documents_ar k) ∧
    (∀ (scores : List ℚ) (docs : List Doc),
      (bm25Select scores docs k).map SR.document
          = (selIdx scores docs k).map (fun i => docs.getD i ⟨"", none⟩) ∧
      (bm25Select scores docs k).map SR.score
          = (selIdx scores docs k).map (fun i => scores.getD i 0) ∧
      (selIdx scores docs k).Pairwise (idxGtKey scores)) := by
  have hcases : bm25Search pp det scoresOf st query k language = [] ∨
      bm25Search pp det scoresOf st query k language
        = bm25Select (scoresOf st.tokenized_corpus_fr
            (pp query (resolveLang det language query))) st.documents_fr k ∨
      bm25Search pp det scoresOf st query k language
        = bm25Select (scoresOf st.tokenized_corpus_ar
            (pp query (resolveLang det language query))) st.documents_ar k := by
    unfold bm25Search
    by_cases h1 : pyBlank query
    · simp [h1]
    · simp only [h1, Bool.false_eq_true, if_false]
      by_cases h2 : pp query (resolveLang det language query) = []
      · simp [h2]
      · by_cases h3 : resolveLang det language query = "fr" ∧ st.tokenized_corpus_fr ≠ []
        · rcases h3 with ⟨hl, hc⟩
          rw [hl] at h2
          simp [h2, hl, hc]
        · by_cases h4 : resolveLang det language query = "ar" ∧ st.tokenized_corpus_ar ≠ []
          · rcases h4 with ⟨hl, hc⟩
            rw [hl] at h2
            simp [h2, hl, hc, h3]
          · simp [h2, h3, h4]
  refine ⟨?_, ?_, ?_, hcases, ?_⟩
  · rcases hcases with h | h | h <;> rw [h]
    · simp
    · exact bm25Select_length_le _ _ k hk
    · exact bm25Select_length_le _ _ k hk
  · rcases hcases with h | h | h <;> rw [h]
    · simp
    · exact bm25Select_pos _ _ k
    · exact bm25Select_pos _ _ k
  · rcases hcases with h | h | h <;> rw [h]
    · simp
    · exact bm25Select_sorted _ _ k
    · exact bm25Select_sorted _ _ k
  · intro scores docs
    exact ⟨bm25Select_map_doc scores docs k, bm25Select_map_score scores docs k,
      selIdx_pairwise scores docs k⟩

/-- Witness for C2 amended at the two-document tied-score corpus of the
counterexample: at most 2 results, positive scores, descending order, and
the `selIdx`/tie-order characterization instantiated at the concrete
scores and documents. -/
theorem bm25_search_ranking_c2_witness :
    (1 : Nat) ≤ 2 ∧
    (bm25Search (fun q _ => [q]) (fun _ => "fr") (fun _ _ => [2, 2])
        ⟨[["t"], ["u"]], [], [⟨"d0", some "fr"⟩, ⟨"d1", some "fr"⟩], []⟩ "query" 2
        (some "fr")).length ≤ 2 ∧
    (∀ r ∈ bm25Search (fun q _ => [q]) (fun _ => "fr") (fun _ _ => [2, 2])
        ⟨[["t"], ["u"]], [], [⟨"d0", some "fr"⟩, ⟨"d1", some "fr"⟩], []⟩ "query" 2
        (some "fr"), 0 < r.score) ∧
    (bm25Search (fun q _ => [q]) (fun _ => "fr") (fun _ _ => [2, 2])
        ⟨[["t"], ["u"]], [], [⟨"d0", some "fr"⟩, ⟨"d1", some "fr"⟩], []⟩ "query" 2
        (some "fr")).Pairwise (fun a b => b.score ≤ a.score) ∧
    ((bm25Select [2, 2] [⟨"d0", some "fr"⟩, ⟨"d1", some "fr"⟩] 2).map SR.document
        = (selIdx [2, 2] [⟨"d0", some "fr"⟩, ⟨"d1", some "fr"⟩] 2).map
            (fun i => [(⟨"d0", some "fr"⟩ : Doc), ⟨"d1", some "fr"⟩].getD i ⟨"", none⟩) ∧
     (bm25Select [2, 2] [⟨"d0", some "fr"⟩, ⟨"d1", some "fr"⟩] 2).map SR.score
        = (selIdx [2, 2] [⟨"d0", some "fr"⟩, ⟨"d1", some "fr"⟩] 2).map
            (fun i => [(2 : ℚ), 2].getD i 0) ∧
     (selIdx [2, 2] [⟨"d0", some "fr"⟩, ⟨"d1", some "fr"⟩] 2).Pairwise (idxGtKey [2, 2])) :=
  ⟨by decide,
   (bm25_search_ranking_c2 (fun q _ => [q]) (fun _ => "fr") (fun _ _ => [2, 2])
      ⟨[["t"], ["u"]], [], [⟨"d0", some "fr"⟩, ⟨"d1", some "fr"⟩], []⟩ "query" 2
      (some "fr") (by decide)).1,
   (bm25_search_ranking_c2 (fun q _ => [q]) (fun _ => "fr") (fun _ _ => [2, 2])
      ⟨[["t"], ["u"]], [], [⟨"d0", some "fr"⟩, ⟨"d1", some "fr"⟩], []⟩ "query" 2
      (some "fr") (by decide)).2.1,
   (bm25_search_ranking_c2 (fun q _ => [q]) (fun _ => "fr") (fun _ _ => [2, 2])
      ⟨[["t"], ["u"]], [], [⟨"d0", some "fr"⟩, ⟨"d1", some "fr"⟩], []⟩ "query" 2
      (some "fr") (by decide)).2.2.1,
   (bm25_search_ranking_c2 (fun q _ => [q]) (fun _ => "fr") (fun _ _ => [2, 2])
      ⟨[["t"], ["u"]], [], [⟨"d0", some "fr"⟩, ⟨"d1", some "fr"⟩], []⟩ "query" 2
      (some "fr") (by decide)).2.2.2.2 [2, 2] [⟨"d0", some "fr"⟩, ⟨"d1", some "fr"⟩]⟩

theorem foldl_min_le_init :
    ∀ (l : List SR) (a : ℚ), l.foldl (fun b x => min b x.score) a ≤ a := by
  intro l
  induction l with
  | nil => intro a; simp
  | cons x t ih =>
    intro a
    simp only [List.foldl_cons]
    exact le_trans (ih (min a x.score)) (min_le_left a x.score)

theorem foldl_min_le_mem :
    ∀ (l : List SR) (a : ℚ) (x : SR), x ∈ l →
      l.foldl (fun b y => min b y.score) a ≤ x.score := by
  intro l
  induction l with
  | nil => intro a x hx; simp at hx
  | cons y t ih =>
    intro a x hx
    simp only [List.foldl_cons]
    rcases List.mem_cons.mp hx with rfl | hx
    · exact le_trans (foldl_min_le_init t (min a x.score)) (min_le_right a x.score)
    · exact ih (min a y.score) x hx

theorem init_le_foldl_max :
    ∀ (l : List SR) (a : ℚ), a ≤ l.foldl (fun b x => max b x.score) a := by
  intro l
  induction l with
  | nil => intro a; simp
  | cons x t ih =>
    intro a
    simp only [List.foldl_cons]
    exact le_trans (le_max_left a x.score) (ih (max a x.score))

theorem mem_le_foldl_max :
    ∀ (l : List SR) (a : ℚ) (x : SR), x ∈ l →
      x.score ≤ l.foldl (fun b y => max b y.score) a := by
  intro l
  induction l with
  | nil => intro a x hx; simp at hx
  | cons y t ih =>
    intro a x hx
    simp only [List.foldl_cons]
    rcases List.mem_cons.mp hx with rfl | hx
    · exact le_trans (le_max_right a x.score) (init_le_foldl_max t (max a x.score))
    · exact ih (max a y.score) x hx

theorem foldl_min_const :
    ∀ (l : List SR) (a : ℚ), (∀ x ∈ l, x.score = a) →
      l.foldl (fun b y => min b y.score) a = a := by
  intro l
  induction l with
  | nil => intro a _; rfl
  | cons y t ih =>
    intro a h
    simp only [List.foldl_cons]
    rw [h y (List.mem_cons_self y t), min_self]
    exact ih a fun x hx => h x (List.mem_cons_of_mem y hx)

theorem foldl_max_const :
    ∀ (l : List SR) (a : ℚ), (∀ x ∈ l, x.score = a) →
      l.foldl (fun b y => max b y.score) a = a := by
  intro l
  induction l with
  | nil => intro a _; rfl
  | cons y t ih =>
    intro a h
    simp only [List.foldl_cons]
    rw [h y (List.mem_cons_self y t), max_self]
    exact ih a fun x hx => h x (List.mem_cons_of_mem y hx)

theorem normalizeScores_bounds (rs : List SR) :
    ∀ r ∈ normalizeScores rs, 0 ≤ r.score ∧ r.score ≤ 1 := by
  cases rs with
  | nil => intro r hr; simp [normalizeScores] at hr
  | cons x t =>
    intro r hr
    simp only [normalizeScores] at hr
    split at hr
    · rcases List.mem_map.mp hr with ⟨y, _, rfl⟩
      exact ⟨by norm_num, by norm_num⟩
    · rename_i hne
      rcases List.mem_map.mp hr with ⟨y, hy, rfl⟩
      have h1 : t.foldl (fun a z => min a z.score) x.score ≤ y.score := by
        rcases List.mem_cons.mp hy with rfl | hy'
        · exact foldl_min_le_init t y.score
        · exact foldl_min_le_mem t x.score y hy'
      have h2 : y.score ≤ t.foldl (fun a z => max a z.score) x.score := by
        rcases List.mem_cons.mp hy with rfl | hy'
        · exact init_le_foldl_max t y.score
        · exact mem_le_foldl_max t x.score y hy'
      have h3 : t.foldl (fun a z => min a z.score) x.score
          ≤ t.foldl (fun a z => max a z.score) x.score :=
        le_trans (foldl_min_le_init t x.score) (init_le_foldl_max t x.score)
      have h4 : t.foldl (fun a z => min a z.score) x.score
          < t.foldl (fun a z => max a z.score) x.score :=
        lt_of_le_of_ne h3 fun h => hne h.symm
      have hpos : 0 < t.foldl (fun a z => max a z.score) x.score
          - t.foldl (fun a z => min a z.score) x.score := by linarith
      constructor
      · apply div_nonneg <;> linarith
      · rw [div_le_one hpos]
        linarith

theorem normalizeScores_const (rs : List SR)
    (hconst : ∀ x ∈ rs, ∀ y ∈ rs, x.score = y.score) :
    ∀ r ∈ normalizeScores rs, r.score = 1 := by
  cases rs with
  | nil => intro r hr; simp [normalizeScores] at hr
  | cons x t =>
    intro r hr
    simp only [normalizeScores] at hr
    have hall : ∀ y ∈ t, y.score = x.score := fun y hy =>
      hconst y (List.mem_cons_of_mem x hy) x (List.mem_cons_self x t)
    rw [foldl_min_const t x.score hall, foldl_max_const t x.score hall] at hr
    simp only [if_pos rfl] at hr
    rcases List.mem_map.mp hr with ⟨y, _, rfl⟩
    rfl

theorem dictInsert_mem :
    ∀ (l : List (String × FusedEntry)) (k : String) (v : FusedEntry) (p : String × FusedEntry),
      p ∈ dictInsert k v l → p = (k, v) ∨ p ∈ l := by
  intro l
  induction l with
  | nil => intro k v p hp; simpa [dictInsert] using hp
  | cons q t ih =>
    intro k v p hp
    simp only [dictInsert] at hp
    split at hp
    · rcases List.mem_cons.mp hp with rfl | hp
      · exact Or.inl rfl
      · exact Or.inr (List.mem_cons_of_mem q hp)
    · rcases List.mem_cons.mp hp with rfl | hp
      · exact Or.inr (List.mem_cons_self q t)
      · rcases ih k v p hp with h | h
        · exact Or.inl h
        · exact Or.inr (List.mem_cons_of_mem q h)

theorem dictSetBm25_mem :
    ∀ (l : List (String × FusedEntry)) (k : String) (s : ℚ) (p : String × FusedEntry),
      p ∈ dictSetBm25 k s l →
        p ∈ l ∨ ∃ q ∈ l, q.1 = k ∧ p = (q.1, { q.2 with bm25_score := s }) := by
  intro l
  induction l with
  | nil => intro k s p hp; simp [dictSetBm25] at hp
  | cons q t ih =>
    intro k s p hp
    simp only [dictSetBm25] at hp
    split at hp
    · rename_i hk
      rcases List.mem_cons.mp hp with rfl | hp
      · exact Or.inr ⟨q, List.mem_cons_self q t, hk, rfl⟩
      · exact Or.inl (List.mem_cons_of_mem q hp)
    · rcases List.mem_cons.mp hp with rfl | hp
      · exact Or.inl (List.mem_cons_self q t)
      · rcases ih k s p hp with h | ⟨q', hq', hk', rfl⟩
        · exact Or.inl (List.mem_cons_of_mem q h)
        · exact Or.inr ⟨q', List.mem_cons_of_mem q hq', hk', rfl⟩

theorem fusionDict_phase1_inv (fw bw : ℚ) (nf nb : List SR) :
    ∀ (l : List SR) (acc : List (String × FusedEntry)),
      (∀ x ∈ l, x ∈ nf) → (∀ p ∈ acc, entryOk fw bw nf nb p) →
      ∀ p ∈ l.foldl
          (fun acc r => dictInsert r.document.id ⟨r.document, r.score * fw, 0⟩ acc) acc,
        entryOk fw bw nf nb p := by
  intro l
  induction l with
  | nil => intro acc _ hacc p hp; exact hacc p hp
  | cons r t ih =>
    intro acc hsub hacc p hp
    simp only [List.foldl_cons] at hp
    refine ih _ (fun x hx => hsub x (List.mem_cons_of_mem r hx)) ?_ p hp
    intro q hq
    rcases dictInsert_mem acc r.document.id ⟨r.document, r.score * fw, 0⟩ q hq with rfl | hq'
    · exact ⟨rfl, Or.inr ⟨r, hsub r (List.mem_cons_self r t), rfl, rfl⟩, Or.inl rfl⟩
    · exact hacc q hq'

theorem fusionDict_phase2_inv (fw bw : ℚ) (nf nb : List SR) :
    ∀ (l : List SR) (acc : List (String × FusedEntry)),
      (∀ x ∈ l, x ∈ nb) → (∀ p ∈ acc, entryOk fw bw nf nb p) →
      ∀ p ∈ l.foldl
          (fun acc r =>
            if dictHasKey r.document.id acc then dictSetBm25 r.document.id (r.score * bw) acc
            else dictInsert r.document.id ⟨r.document, 0, r.score * bw⟩ acc) acc,
        entryOk fw bw nf nb p := by
  intro l
  induction l with
  | nil => intro acc _ hacc p hp; exact hacc p hp
  | cons r t ih =>
    intro acc hsub hacc p hp
    simp only [List.foldl_cons] at hp
    refine ih
      (if dictHasKey r.document.id acc then dictSetBm25 r.document.id (r.score * bw) acc
       else dictInsert r.document.id ⟨r.document, 0, r.score * bw⟩ acc)
      (fun x hx => hsub x (List.mem_cons_of_mem r hx)) ?_ p hp
    · intro q hq
      split at hq
      · rcases dictSetBm25_mem acc r.document.id (r.score * bw) q hq with h | ⟨q', hq', hk', rfl⟩
        · exact hacc q h
        · rcases hacc q' hq' with ⟨hid, hF, _⟩
          exact ⟨hid, hF, Or.inr ⟨r, hsub r (List.mem_cons_self r t), hk'.symm ▸ rfl, rfl⟩⟩
      · rcases dictInsert_mem acc r.document.id ⟨r.document, 0, r.score * bw⟩ q hq with rfl | hq'
        · exact ⟨rfl, Or.inl rfl, Or.inr ⟨r, hsub r (List.mem_cons_self r t), rfl, rfl⟩⟩
        · exact hacc q hq'

theorem fusionDict_inv (fw bw : ℚ) (nf nb : List SR) :
    ∀ p ∈ fusionDict fw bw nf nb, entryOk fw bw nf nb p := by
  intro p hp
  unfold fusionDict at hp
  refine fusionDict_phase2_inv fw bw nf nb nb _ (fun x hx => hx) ?_ p hp
  exact fusionDict_phase1_inv fw bw nf nb nf [] (fun x hx => hx) (by simp)

theorem dictHasKey_iff (l : List (String × FusedEntry)) (k : String) :
    dictHasKey k l = true ↔ ∃ p ∈ l, p.1 = k := by
  simp [dictHasKey, List.any_eq_true]

theorem dictInsert_self_mem :
    ∀ (l : List (String × FusedEntry)) (k : String) (v : FusedEntry),
      (k, v) ∈ dictInsert k v l := by
  intro l
  induction l with
  | nil => intro k v; simp [dictInsert]
  | cons q t ih =>
    intro k v
    simp only [dictInsert]
    split
    · exact List.mem_cons_self _ _
    · exact List.mem_cons_of_mem q (ih k v)

theorem dictInsert_keep :
    ∀ (l : List (String × FusedEntry)) (k : String) (v : FusedEntry)
      (p : String × FusedEntry), p ∈ l → p.1 ≠ k → p ∈ dictInsert k v l := by
  intro l
  induction l with
  | nil => intro k v p hp _; simp at hp
  | cons q t ih =>
    intro k v p hp hne
    simp only [dictInsert]
    split
    · rename_i hqk
      rcases List.mem_cons.mp hp with rfl | hp
      · exact absurd hqk hne
      · exact List.mem_cons_of_mem _ hp
    · rcases List.mem_cons.mp hp with rfl | hp
      · exact List.mem_cons_self _ _
      · exact List.mem_cons_of_mem q (ih k v p hp hne)

theorem dictHasKey_insert (l : List (String × FusedEntry)) (k : String) (v : FusedEntry)
    (k' : String) (h : dictHasKey k' l = true ∨ k' = k) :
    dictHasKey k' (dictInsert k v l) = true := by
  rcases h with h | rfl
  · rcases (dictHasKey_iff l k').mp h with ⟨p, hp, hpk⟩
    by_cases hc : p.1 = k
    · refine (dictHasKey_iff _ _).mpr ⟨(k, v), dictInsert_self_mem l k v, ?_⟩
      rw [← hpk, hc]
    · exact (dictHasKey_iff _ _).mpr ⟨p, dictInsert_keep l k v p hp hc, hpk⟩
  · exact (dictHasKey_iff _ _).mpr ⟨(k', v), dictInsert_self_mem l k' v, rfl⟩

theorem dictHasKey_setBm25 :
    ∀ (l : List (String × FusedEntry)) (k : String) (s : ℚ) (k' : String),
      dictHasKey k' (dictSetBm25 k s l) = dictHasKey k' l := by
  intro l
  induction l with
  | nil => intro k s k'; rfl
  | cons q t ih =>
    intro k s k'
    simp only [dictSetBm25]
    split
    · simp [dictHasKey, List.any_cons]
    · simp only [dictHasKey, List.any_cons] at ih ⊢
      rw [ih k s k']

theorem phase1_keys (fw : ℚ) :
    ∀ (l : List SR) (acc : List (String × FusedEntry)) (k : String),
      (dictHasKey k acc = true ∨ ∃ s ∈ l, s.document.id = k) →
      dictHasKey k
        (l.foldl (fun acc r => dictInsert r.document.id ⟨r.document, r.score * fw, 0⟩ acc) acc)
        = true := by
  intro l
  induction l with
  | nil =>
    intro acc k h
    rcases h with h | ⟨s, hs, _⟩
    · exact h
    · simp at hs
  | cons r t ih =>
    intro acc k h
    simp only [List.foldl_cons]
    rcases h with h | ⟨s, hs, hk⟩
    · exact ih _ k (Or.inl (dictHasKey_insert acc r.document.id _ k (Or.inl h)))
    · rcases List.mem_cons.mp hs with rfl | hs
      · exact ih _ k (Or.inl (dictHasKey_insert acc s.document.id _ k (Or.inr hk.symm)))
      · exact ih _ k (Or.inr ⟨s, hs, hk⟩)

theorem phase2_keys (bw : ℚ) :
    ∀ (l : List SR) (acc : List (String × FusedEntry)) (k : String),
      (dictHasKey k acc = true ∨ ∃ s ∈ l, s.document.id = k) →
      dictHasKey k
        (l.foldl (fun acc r =>
          if dictHasKey r.document.id acc then dictSetBm25 r.document.id (r.score * bw) acc
          else dictInsert r.document.id ⟨r.document, 0, r.score * bw⟩ acc) acc)
        = true := by
  intro l
  induction l with
  | nil =>
    intro acc k h
    rcases h with h | ⟨s, hs, _⟩
    · exact h
    · simp at hs
  | cons r t ih =>
    intro acc k h
    simp only [List.foldl_cons]
    have hstep : ∀ k', dictHasKey k' acc = true ∨ k' = r.document.id →
        dictHasKey k'
          (if dictHasKey r.document.id acc then dictSetBm25 r.document.id (r.score * bw) acc
           else dictInsert r.document.id ⟨r.document, 0, r.score * bw⟩ acc) = true := by
      intro k' hk'
      split
      · rename_i hhk
        rw [dictHasKey_setBm25]
        rcases hk' with h' | rfl
        · exact h'
        · exact hhk
      · exact dictHasKey_insert acc r.document.id _ k' hk'
    rcases h with h | ⟨s, hs, hk⟩
    · exact ih _ k (Or.inl (hstep k (Or.inl h)))
    · rcases List.mem_cons.mp hs with rfl | hs
      · exact ih _ k (Or.inl (hstep k (Or.inr hk.symm)))
      · exact ih _ k (Or.inr ⟨s, hs, hk⟩)

theorem fusionDict_complete (fw bw : ℚ) (nf nb : List SR) :
    (∀ s ∈ nf, dictHasKey s.document.id (fusionDict fw bw nf nb) = true) ∧
    (∀ s ∈ nb, dictHasKey s.document.id (fusionDict fw bw nf nb) = true) := by
  constructor
  · intro s hs
    unfold fusionDict
    exact phase2_keys bw nb _ _ (Or.inl (phase1_keys fw nf [] _ (Or.inr ⟨s, hs, rfl⟩)))
  · intro s hs
    unfold fusionDict
    exact phase2_keys bw nb _ _ (Or.inr ⟨s, hs, rfl⟩)

theorem insertByScore_mem :
    ∀ (l : List FusedEntry) (x p : FusedEntry), p ∈ insertByScore x l → p = x ∨ p ∈ l := by
  intro l
  induction l with
  | nil => intro x p hp; simpa [insertByScore] using hp
  | cons y t ih =>
    intro x p hp
    simp only [insertByScore] at hp
    split at hp
    · rcases List.mem_cons.mp hp with rfl | hp
      · exact Or.inr (List.mem_cons_self p t)
      · rcases ih x p hp with h | h
        · exact Or.inl h
        · exact Or.inr (List.mem_cons_of_mem y h)
    · rcases List.mem_cons.mp hp with rfl | hp
      · exact Or.inl rfl
      · exact Or.inr hp

theorem insertByScore_pairwise :
    ∀ (l : List FusedEntry) (x : FusedEntry),
      l.Pairwise (fun a b => combinedScore b ≤ combinedScore a) →
      (insertByScore x l).Pairwise (fun a b => combinedScore b ≤ combinedScore a) := by
  intro l
  induction l with
  | nil => intro x _; simp [insertByScore]
  | cons y t ih =>
    intro x hp
    rcases List.pairwise_cons.mp hp with ⟨hy, ht⟩
    simp only [insertByScore]
    split
    · rename_i hlt
      refine List.pairwise_cons.mpr ⟨?_, ih x ht⟩
      intro z hz
      rcases insertByScore_mem t x z hz with rfl | hz
      · exact le_of_lt hlt
      · exact hy z hz
    · rename_i hge
      refine List.pairwise_cons.mpr ⟨?_, hp⟩
      intro z hz
      rcases List.mem_cons.mp hz with rfl | hz
      · exact not_lt.mp hge
      · exact le_trans (hy z hz) (not_lt.mp hge)

theorem sortByScoreDesc_pairwise :
    ∀ l : List FusedEntry,
      (sortByScoreDesc l).Pairwise (fun a b => combinedScore b ≤ combinedScore a) := by
  intro l
  induction l with
  | nil => simp [sortByScoreDesc]
  | cons x t ih =>
    simp only [sortByScoreDesc]
    exact insertByScore_pairwise (sortByScoreDesc t) x ih

theorem sortByScoreDesc_mem :
    ∀ (l : List FusedEntry) (p : FusedEntry), p ∈ sortByScoreDesc l → p ∈ l := by
  intro l
  induction l with
  | nil => intro p hp; simp [sortByScoreDesc] at hp
  | cons x t ih =>
    intro p hp
    simp only [sortByScoreDesc] at hp
    rcases insertByScore_mem (sortByScoreDesc t) x p hp with rfl | hp
    · exact List.mem_cons_self p t
    · exact List.mem_cons_of_mem x (ih p hp)

theorem pyEnumFrom_mem :
    ∀ (l : List α) (n : Nat) (p : Nat × α), p ∈ pyEnumFrom n l → p.2 ∈ l := by
  intro l
  induction l with
  | nil => intro n p hp; simp [pyEnumFrom] at hp
  | cons x t ih =>
    intro n p hp
    simp only [pyEnumFrom] at hp
    rcases List.mem_cons.mp hp with rfl | hp
    · exact List.mem_cons_self x t
    · exact List.mem_cons_of_mem x (ih (n + 1) p hp)

theorem pyEnumFrom_pairwise (R : α → α → Prop) :
    ∀ (l : List α) (n : Nat), l.Pairwise R →
      (pyEnumFrom n l).Pairwise (fun p q => R p.2 q.2) := by
  intro l
  induction l with
  | nil => intro n _; simp [pyEnumFrom]
  | cons x t ih =>
    intro n hp
    rcases List.pairwise_cons.mp hp with ⟨hx, ht⟩
    simp only [pyEnumFrom]
    refine List.pairwise_cons.mpr ⟨?_, ih (n + 1) ht⟩
    intro q hq
    exact hx q.2 (pyEnumFrom_mem t (n + 1) q hq)

theorem pyEnumFrom_rank_range :
    ∀ (l : List FusedEntry) (n : Nat),
      (pyEnumFrom n l).map (fun p => p.1 + 1) = List.range' (n + 1) l.length := by
  intro l
  induction l with
  | nil => intro n; rfl
  | cons x t ih =>
    intro n
    simp only [pyEnumFrom, List.map_cons, List.length_cons]
    rw [ih (n + 1)]
    rfl

theorem formatFused_length (k : Nat) (l : List FusedEntry) :
    (formatFused k l).length = min k l.length := by
  unfold formatFused
  rw [List.length_map, pyEnumFrom_length, List.length_take]

theorem formatFused_ranks (k : Nat) (l : List FusedEntry) :
    (formatFused k l).map HR.rank = List.range' 1 (formatFused k l).length := by
  rw [formatFused_length]
  unfold formatFused
  rw [List.map_map]
  have h := pyEnumFrom_rank_range (l.take k) 0
  rw [List.length_take] at h
  exact h

theorem formatFused_score_sum (k : Nat) (l : List FusedEntry) :
    ∀ r ∈ formatFused k l, r.score = r.faiss_score + r.bm25_score := by
  intro r hr
  unfold formatFused at hr
  rcases List.mem_map.mp hr with ⟨p, _, rfl⟩
  rfl

theorem formatFused_provenance (k : Nat) (l : List FusedEntry) :
    ∀ r ∈ formatFused k l, ∃ e ∈ l,
      r.document = e.document ∧ r.faiss_score = e.faiss_score ∧
      r.bm25_score = e.bm25_score := by
  intro r hr
  unfold formatFused at hr
  rcases List.mem_map.mp hr with ⟨p, hp, rfl⟩
  exact ⟨p.2, List.take_subset k l (pyEnumFrom_mem (l.take k) 0 p hp), rfl, rfl, rfl⟩

theorem formatFused_sorted (k : Nat) (l : List FusedEntry)
    (h : l.Pairwise fun a b => combinedScore b ≤ combinedScore a) :
    (formatFused k l).Pairwise fun a b => b.score ≤ a.score := by
  unfold formatFused
  rw [List.pairwise_map]
  have h1 := h.sublist (List.take_sublist k l)
  have h2 := pyEnumFrom_pairwise (fun a b => combinedScore b ≤ combinedScore a) (l.take k) 0 h1
  exact h2.imp fun hab => hab

/-- C1: on a non-blank query where both sub-index searches return non-empty
lists, `HybridRetriever.search` returns exactly the fused output of
`_combine_results`, which (a) min-max normalizes each source independently
into `[0, 1]`, mapping every score to `1` when a source's scores are all
equal, (b) gives every document appearing in either source an entry in the
score dictionary, (c) scores each returned document as
`faiss_weight * normalized_vector_score + bm25_weight * normalized_lexical_score`
with a `0` contribution for a source the document is missing from,
(d) returns the entries sorted by combined score descending, truncated to
`top_k`, with ranks re-assigned `1..`. -/
theorem combine_fusion_spec_c1 (fw bw : ℚ) (q : String) (faissR bm25R : List SR) (k : Nat)
    (hq : pyBlank q = false) (hf : faissR ≠ []) (hb : bm25R ≠ []) :
    hybridSearchE fw bw q (.ok faissR) (.ok bm25R) k
      = .fused (combineResults fw bw faissR bm25R k) ∧
    (∀ r ∈ normalizeScores faissR, 0 ≤ r.score ∧ r.score ≤ 1) ∧
    (∀ r ∈ normalizeScores bm25R, 0 ≤ r.score ∧ r.score ≤ 1) ∧
    ((∀ x ∈ faissR, ∀ y ∈ faissR, x.score = y.score) →
      ∀ r ∈ normalizeScores faissR, r.score = 1) ∧
    ((∀ x ∈ bm25R, ∀ y ∈ bm25R, x.score = y.score) →
      ∀ r ∈ normalizeScores bm25R, r.score = 1) ∧
    (∀ s ∈ normalizeScores faissR, dictHasKey s.document.id
      (fusionDict fw bw (normalizeScores faissR) (normalizeScores bm25R)) = true) ∧
    (∀ s ∈ normalizeScores bm25R, dictHasKey s.document.id
      (fusionDict fw bw (normalizeScores faissR) (normalizeScores bm25R)) = true) ∧
    (combineResults fw bw faissR bm25R k).length ≤ k ∧
    (combineResults fw bw faissR bm25R k).Pairwise (fun a b => b.score ≤ a.score) ∧
    (combineResults fw bw faissR bm25R k).map HR.rank
      = List.range' 1 (combineResults fw bw faissR bm25R k).length ∧
    (∀ r ∈ combineResults fw bw faissR bm25R k,
      r.score = r.faiss_score + r.bm25_score ∧
      (r.faiss_score = 0 ∨ ∃ s ∈ normalizeScores faissR,
        s.document.id = r.document.id ∧ r.faiss_score = s.score * fw) ∧
      (r.bm25_score = 0 ∨ ∃ s ∈ normalizeScores bm25R,
        s.document.id = r.document.id ∧ r.bm25_score = s.score * bw)) := by
  refine ⟨?_, normalizeScores_bounds faissR, normalizeScores_bounds bm25R,
    fun h => normalizeScores_const faissR h, fun h => normalizeScores_const bm25R h,
    (fusionDict_complete fw bw _ _).1, (fusionDict_complete fw bw _ _).2, ?_, ?_, ?_, ?_⟩
  · simp [hybridSearchE, hybridCombine, hq, hf, hb]
  · unfold combineResults
    rw [formatFused_length]
    exact Nat.min_le_left _ _
  · exact formatFused_sorted k _ (sortByScoreDesc_pairwise _)
  · exact formatFused_ranks k _
  · intro r hr
    unfold combineResults at hr
    have hsum := formatFused_score_sum k _ r hr
    rcases formatFused_provenance k _ r hr with ⟨e, he, hdoc, hF, hB⟩
    have he' := sortByScoreDesc_mem _ e he
    rcases List.mem_map.mp he' with ⟨p, hp, rfl⟩
    rcases fusionDict_inv fw bw (normalizeScores faissR) (normalizeScores bm25R) p hp
      with ⟨hid, hFopt, hBopt⟩
    refine ⟨hsum, ?_, ?_⟩
    · rcases hFopt with h0 | ⟨s, hs, hsk, hval⟩
      · exact Or.inl (hF.trans h0)
      · refine Or.inr ⟨s, hs, ?_, hF.trans hval⟩
        rw [hdoc]
        exact hsk.trans hid.symm
    · rcases hBopt with h0 | ⟨s, hs, hsk, hval⟩
      · exact Or.inl (hB.trans h0)
      · refine Or.inr ⟨s, hs, ?_, hB.trans hval⟩
        rw [hdoc]
        exact hsk.trans hid.symm

/-- Witness for C1 at a two-document FAISS list and one-document BM25 list:
the hybrid search takes the fused branch, with length, order and rank
properties instantiated. -/
theorem combine_fusion_spec_c1_witness :
    (pyBlank "q" = false ∧
     ([⟨⟨"a", some "fr"⟩, 4, 1⟩, ⟨⟨"b", some "fr"⟩, 2, 2⟩] : List SR) ≠ [] ∧
     ([⟨⟨"b", some "fr"⟩, 7, 1⟩] : List SR) ≠ []) ∧
    hybridSearchE (1/2) (1/2) "q"
        (.ok [⟨⟨"a", some "fr"⟩, 4, 1⟩, ⟨⟨"b", some "fr"⟩, 2, 2⟩])
        (.ok [⟨⟨"b", some "fr"⟩, 7, 1⟩]) 5
      = .fused (combineResults (1/2) (1/2)
          [⟨⟨"a", some "fr"⟩, 4, 1⟩, ⟨⟨"b", some "fr"⟩, 2, 2⟩]
          [⟨⟨"b", some "fr"⟩, 7, 1⟩] 5) ∧
    (combineResults (1/2) (1/2)
        [⟨⟨"a", some "fr"⟩, 4, 1⟩, ⟨⟨"b", some "fr"⟩, 2, 2⟩]
        [⟨⟨"b", some "fr"⟩, 7, 1⟩] 5).length ≤ 5 ∧
    (combineResults (1/2) (1/2)
        [⟨⟨"a", some "fr"⟩, 4, 1⟩, ⟨⟨"b", some "fr"⟩, 2, 2⟩]
        [⟨⟨"b", some "fr"⟩, 7, 1⟩] 5).Pairwise (fun a b => b.score ≤ a.score) ∧
    (combineResults (1/2) (1/2)
        [⟨⟨"a", some "fr"⟩, 4, 1⟩, ⟨⟨"b", some "fr"⟩, 2, 2⟩]
        [⟨⟨"b", some "fr"⟩, 7, 1⟩] 5).map HR.rank
      = List.range' 1 (combineResults (1/2) (1/2)
          [⟨⟨"a", some "fr"⟩, 4, 1⟩, ⟨⟨"b", some "fr"⟩, 2, 2⟩]
          [⟨⟨"b", some "fr"⟩, 7, 1⟩] 5).length :=
  ⟨⟨by decide, by decide, by decide⟩,
   (combine_fusion_spec_c1 (1/2) (1/2) "q"
      [⟨⟨"a", some "fr"⟩, 4, 1⟩, ⟨⟨"b", some "fr"⟩, 2, 2⟩]
      [⟨⟨"b", some "fr"⟩, 7, 1⟩] 5 (by decide) (by decide) (by decide)).1,
   (combine_fusion_spec_c1 (1/2) (1/2) "q"
      [⟨⟨"a", some "fr"⟩, 4, 1⟩, ⟨⟨"b", some "fr"⟩, 2, 2⟩]
      [⟨⟨"b", some "fr"⟩, 7, 1⟩] 5 (by decide) (by decide) (by decide)).2.2.2.2.2.2.2.1,
   (combine_fusion_spec_c1 (1/2) (1/2) "q"
      [⟨⟨"a", some "fr"⟩, 4, 1⟩, ⟨⟨"b", some "fr"⟩, 2, 2⟩]
      [⟨⟨"b", some "fr"⟩, 7, 1⟩] 5 (by decide) (by decide) (by decide)).2.2.2.2.2.2.2.2.1,
   (combine_fusion_spec_c1 (1/2) (1/2) "q"
      [⟨⟨"a", some "fr"⟩, 4, 1⟩, ⟨⟨"b", some "fr"⟩, 2, 2⟩]
      [⟨⟨"b", some "fr"⟩, 7, 1⟩] 5 (by decide) (by decide) (by decide)).2.2.2.2.2.2.2.2.2.1⟩
